import Mathlib

/-!
Verification of the `imgv` PPM (P3) image viewer against its specification.

The development shallowly embeds `src/main.c`:
  * `ppm_read_file` — the P3 decoder, built from models of the `fscanf`
    directives it uses (`%2s`, `%i`, `%hhu`).  The input stream is a
    `List Char`; `fopen` failure is outside the model (the decoder receives
    the file's contents), and `malloc` is modelled as always succeeding.
    C `int` overflow (a 32-bit wrap, undefined behaviour in C) is not
    modelled: width, height and max_color are unbounded `Int`s.
  * `sdl_render_once` — the presenter, modelled as the list of SDL calls
    it would issue.
  * `update_state` / `handle_event` / `main_init` — the viewer state
    machine, modelled as pure functions that also emit the list of
    observable effects (destruction, adoption, window retitle/resize,
    draw) in program order.

Decode failures are identified with the distinct `fprintf(stderr, ...)`
diagnostics of the C source; note the pixel-data diagnostic is the fixed
string "Error reading pixel data." and carries no pixel index.
-/

namespace Imgv

instance {ε α : Type} [DecidableEq ε] [DecidableEq α] : DecidableEq (Except ε α) :=
  fun x y =>
    match x, y with
    | .error a, .error b => decidable_of_iff (a = b) (by simp)
    | .error _, .ok _ => .isFalse fun h => Except.noConfusion h
    | .ok _, .error _ => .isFalse fun h => Except.noConfusion h
    | .ok a, .ok b => decidable_of_iff (a = b) (by simp)

/-- The whitespace characters recognised by C `isspace` in the default
locale, which is what `fscanf`'s whitespace skipping uses. -/
def isSpaceC (c : Char) : Bool :=
  c = ' ' || c = '\t' || c = '\n' || c = '\x0b' || c = '\x0c' || c = '\r'

def isDigitC (c : Char) : Bool := '0' ≤ c && c ≤ '9'

def isOctDigitC (c : Char) : Bool := '0' ≤ c && c ≤ '7'

def isHexDigitC (c : Char) : Bool :=
  ('0' ≤ c && c ≤ '9') || ('a' ≤ c && c ≤ 'f') || ('A' ≤ c && c ≤ 'F')

/-- Leading-whitespace skipping performed by the `%s`, `%i` and `%u`
conversion specifiers. -/
def dropSpaces (s : List Char) : List Char := s.dropWhile isSpaceC

/-- Optional sign accepted by `%i` (as `strtol`) and `%hhu` (as `strtoul`):
returns (negative?, rest). -/
def takeSign (s : List Char) : Bool × List Char :=
  match s with
  | [] => (false, [])
  | c :: t =>
    if c = '-' then (true, t)
    else if c = '+' then (false, t)
    else (false, c :: t)

def decDigitVal (c : Char) : Nat := c.toNat - '0'.toNat

def hexDigitVal (c : Char) : Nat :=
  if '0' ≤ c && c ≤ '9' then c.toNat - '0'.toNat
  else if 'a' ≤ c && c ≤ 'f' then c.toNat - 'a'.toNat + 10
  else c.toNat - 'A'.toNat + 10

def decVal (ds : List Char) : Nat := ds.foldl (fun a c => a * 10 + decDigitVal c) 0

def octVal (ds : List Char) : Nat := ds.foldl (fun a c => a * 8 + decDigitVal c) 0

def hexVal (ds : List Char) : Nat := ds.foldl (fun a c => a * 16 + hexDigitVal c) 0

def intSign (neg : Bool) (n : Nat) : Int := if neg then -(n : Int) else (n : Int)

/-- `fscanf("%2s", buf)`: skip whitespace, then read at most two
non-whitespace characters; fails (conversion count 0 / EOF) when no
character is available. -/
def scan2s (s : List Char) : Option (List Char × List Char) :=
  match dropSpaces s with
  | [] => none
  | c :: rest =>
    match rest with
    | [] => some ([c], [])
    | d :: rest2 => if isSpaceC d then some ([c], d :: rest2) else some ([c, d], rest2)

/-- Greedy numeric-token scan: take the maximal run of characters
satisfying `p`; a matching failure (`none`) when the run is empty,
otherwise the converted value and the unconsumed remainder. -/
def scanTok {α : Type} (p : Char → Bool) (f : List Char → α) (s : List Char) :
    Option (α × List Char) :=
  if s.takeWhile p = [] then none
  else some (f (s.takeWhile p), s.dropWhile p)

/-- Greedy numeric-token scan that also matches the empty run (used for
the octal digits following a leading `0`, which is already a valid
numeral by itself). -/
def scanTok0 {α : Type} (p : Char → Bool) (f : List Char → α) (s : List Char) :
    α × List Char :=
  (f (s.takeWhile p), s.dropWhile p)

/-- The `%i` conversion after the sign: an integer in `strtol` base-0
syntax (`0x`/`0X` hex prefix, leading-`0` octal, otherwise decimal).
Scanning is greedy over prefixes of valid numerals, so a lone `0x` with
no following hex digit is a matching failure, as for `fscanf`. -/
def scanIntAfterSign (neg : Bool) : List Char → Option (Int × List Char)
  | [] => none
  | c :: s2 =>
    if c = '0' then
      match s2 with
      | [] => some (intSign neg 0, [])
      | d :: s3 =>
        if d = 'x' || d = 'X' then
          scanTok isHexDigitC (fun ds => intSign neg (hexVal ds)) s3
        else
          some (scanTok0 isOctDigitC (fun ds => intSign neg (octVal ds)) (d :: s3))
    else
      scanTok isDigitC (fun ds => intSign neg (decVal ds)) (c :: s2)

def scanIntCore (s : List Char) : Option (Int × List Char) :=
  scanIntAfterSign (takeSign s).1 (takeSign s).2

/-- `fscanf("%i", &x)` on the remaining stream. -/
def scanInt (s : List Char) : Option (Int × List Char) := scanIntCore (dropSpaces s)

/-- The value `strtoul` produces for an optionally signed decimal numeral
(clamped to `ULONG_MAX` on overflow, negated modulo 2^64 for a leading
minus), truncated by the assignment to the `uint8_t` target of `%hhu`. -/
def hhuStore (neg : Bool) (n : Nat) : Nat :=
  let u := if n < 2 ^ 64 then n else 2 ^ 64 - 1
  (if neg then (2 ^ 64 - u) % 2 ^ 64 else u) % 256

def scanHhuAfterSign (neg : Bool) (s1 : List Char) : Option (Nat × List Char) :=
  scanTok isDigitC (fun ds => hhuStore neg (decVal ds)) s1

def scanHhuCore (s : List Char) : Option (Nat × List Char) :=
  scanHhuAfterSign (takeSign s).1 (takeSign s).2

/-- `fscanf("%hhu", &x)`: optionally signed decimal integer, converted as
by `strtoul` and stored into a `uint8_t`. -/
def scan_hhu (s : List Char) : Option (Nat × List Char) := scanHhuCore (dropSpaces s)

/-- One iteration of the pixel loop's `fscanf("%hhu %hhu %hhu", &r, &g, &b)`:
the three conversions run in order and the directive stops at the first
failing one (the C code only checks that the conversion count is 3). -/
def scan3 (s : List Char) : Option (Nat × Nat × Nat × List Char) :=
  match scan_hhu s with
  | none => none
  | some (r, s1) =>
    match scan_hhu s1 with
    | none => none
    | some (g, s2) =>
      match scan_hhu s2 with
      | none => none
      | some (b, s3) => some (r, g, b, s3)

/-- `struct PPMFile` from `src/main.c` (the `data` pointer becomes the list
of bytes it points to). -/
structure PPMFile where
  path : String
  magic_number : String
  width : Int
  height : Int
  max_color : Int
  data : List Nat
deriving DecidableEq, Repr

/-- The distinct decode-failure diagnostics `ppm_read_file` prints to
stderr before returning NULL.  `fopen` failure ("Failed to open file")
precedes the byte stream and is outside the model; `malloc` failure is
modelled as not occurring. -/
inductive DecodeError where
  | formatError      -- "File is not in PPM P3 format."
  | dimensionError   -- "Error reading image dimensions."
  | maxColorError    -- "Error reading max color."
  | pixelDataError   -- "Error reading pixel data."
deriving DecidableEq, Repr

/-- The pixel loop of `ppm_read_file` (lines 57-74): for each of the `n`
remaining pixels scan three `%hhu` samples and append the 4-byte cell
`data[4i]=255, data[4i+1]=b, data[4i+2]=g, data[4i+3]=r`. -/
def readPixels : List Char → Nat → List Nat → Except DecodeError (List Nat × List Char)
  | s, 0, acc => .ok (acc, s)
  | s, n + 1, acc =>
    match scan3 s with
    | none => .error .pixelDataError
    | some (r, g, b, s2) => readPixels s2 n (acc ++ [255, b, g, r])

/-- The header portion of `ppm_read_file` (lines 25-45): magic tag check
(`magic[0]=='P' && magic[1]=='3'`, where a 1-character scan leaves a NUL at
index 1, modelled by `get? 1 = none`), then width/height, then max color. -/
def readHeader (contents : List Char) : Except DecodeError (Int × Int × Int × List Char) :=
  match scan2s contents with
  | none => .error .formatError
  | some (m, r1) =>
    if m.get? 0 = some 'P' ∧ m.get? 1 = some '3' then
      match scanInt r1 with
      | none => .error .dimensionError
      | some (w, r2) =>
        match scanInt r2 with
        | none => .error .dimensionError
        | some (h, r3) =>
          match scanInt r3 with
          | none => .error .maxColorError
          | some (mc, r4) => .ok (w, h, mc, r4)
    else .error .formatError

/-- `ppm_read_file` on the contents of the file at `path`.  The pixel loop
runs `num_pixels = width * height` times (zero times when the product is
not positive, as for the C `for` loop); the magic check forces the stored
`magic_number` to be "P3". -/
def ppm_read_file (path : String) (contents : List Char) : Except DecodeError PPMFile :=
  match readHeader contents with
  | .error e => .error e
  | .ok (w, h, mc, rest) =>
    match readPixels rest (w * h).toNat [] with
    | .error e => .error e
    | .ok (data, _) => .ok ⟨path, "P3", w, h, mc, data⟩

/-- The SDL calls `sdl_render_once` issues, in program order. -/
inductive RenderOp where
  | createTexture (w h : Int)
  | lockTexture
  | copyPixels (bytes : List Nat)
  | unlockTexture
  | renderCopy (x y w h : Int)
  | destroyTexture
  | setDrawColor (r g b a : Nat)
  | renderClear
  | present
deriving DecidableEq, Repr

/-- `sdl_render_once` (lines 104-161): with an image, stream the pixel
buffer through a texture sized to the image and copy it to the rect at
(0,0); with none, clear to opaque blue `(0,0,255,255)`.  Both branches end
with the single `SDL_RenderPresent`. -/
def sdl_render_once (ppm_file : Option PPMFile) : List RenderOp :=
  match ppm_file with
  | some f =>
    [ .createTexture f.width f.height, .lockTexture, .copyPixels f.data,
      .unlockTexture, .renderCopy 0 0 f.width f.height, .destroyTexture, .present ]
  | none => [ .setDrawColor 0 0 255 255, .renderClear, .present ]

/-- Number of `SDL_RenderPresent` calls in a render trace. -/
def countPresent (ops : List RenderOp) : Nat :=
  ops.countP (fun o => match o with | .present => true | _ => false)

/-- Observable effects of the viewer state machine, in program order:
`ppm_destroy` on the old image, the assignment `*ppm_file = new_ppm_file`
installing the new active image, window retitle/resize, the stdout detail
dump, and a `sdl_render_once` draw of the given state. -/
inductive Effect where
  | destroyImage (img : PPMFile)
  | setActive (img : PPMFile)
  | setWindowTitle (t : String)
  | setWindowSize (w h : Int)
  | printDetails (img : PPMFile)
  | draw (st : Option PPMFile)
deriving DecidableEq, Repr

/-- `update_state` (lines 163-182): decode the dropped file; on failure
return `false` with the state untouched and no effects; on success destroy
the old image (if any), install the new one, retitle and resize the
window, print its details and return `true`. -/
def update_state (new_image_path : String) (contents : List Char)
    (ppm_file : Option PPMFile) : Bool × Option PPMFile × List Effect :=
  match ppm_read_file new_image_path contents with
  | .error _ => (false, ppm_file, [])
  | .ok new_ppm_file =>
    ( true, some new_ppm_file,
      (match ppm_file with
       | some old => [Effect.destroyImage old]
       | none => []) ++
      [ Effect.setActive new_ppm_file,
        Effect.setWindowTitle new_ppm_file.path,
        Effect.setWindowSize new_ppm_file.width new_ppm_file.height,
        Effect.printDetails new_ppm_file ] )

def SDLK_ESCAPE : Nat := 27
def SDLK_q : Nat := 113

structure LoopState where
  running : Bool
  ppm_file : Option PPMFile
deriving DecidableEq, Repr

/-- The events the main loop's `switch` distinguishes.  A file-drop event
carries the dropped path together with that file's contents, which the C
program reads back through `fopen` inside `ppm_read_file`. -/
inductive Event where
  | quit
  | keydown (sym : Nat)
  | dropfile (path : String) (contents : List Char)
  | other
deriving DecidableEq, Repr

/-- One iteration of the event `switch` in `main` (lines 239-262):
`SDL_QUIT` and the escape/q keys clear `running`; `SDL_DROPFILE` runs
`update_state` and draws only when it returned `true`; other events are
ignored. -/
def handle_event (st : LoopState) (ev : Event) : LoopState × List Effect :=
  match ev with
  | .quit => ({ st with running := false }, [])
  | .keydown sym =>
    if sym = SDLK_ESCAPE || sym = SDLK_q then ({ st with running := false }, [])
    else (st, [])
  | .dropfile path contents =>
    match update_state path contents st.ppm_file with
    | (true, st2, tr) => ({ st with ppm_file := st2 }, tr ++ [Effect.draw st2])
    | (false, st2, tr) => ({ st with ppm_file := st2 }, tr)
  | .other => (st, [])

/-- The state `main` (lines 184-234) reaches right before its event loop. -/
structure MainInit where
  state : Option PPMFile
  window_title : String
  window_width : Int
  window_height : Int
  running : Bool
deriving DecidableEq, Repr

/-- Startup portion of `main`: an optional `argv[1]` (with the contents of
the file it names) is decoded; a decode failure leaves `ppm_file` NULL and
the window falls back to title "imgv" and 500x500.  SDL initialisation
failures are fatal exits outside this model; the event loop then starts
with `running = true`. -/
def main_init (arg : Option (String × List Char)) : MainInit :=
  let ppm_file : Option PPMFile :=
    match arg with
    | none => none
    | some (p, c) => (ppm_read_file p c).toOption
  { state := ppm_file
    window_title := match ppm_file with | some f => f.path | none => "imgv"
    window_width := match ppm_file with | some f => f.width | none => 500
    window_height := match ppm_file with | some f => f.height | none => 500
    running := true }

/-- Formalisation of the claimed ordering "the old image's release happens
only after the new image is fully adopted as the active image": scanning
the effect trace left to right, no `destroyImage old` may occur before the
first `setActive new`. -/
def releasedOnlyAfterAdopt (old new : PPMFile) : List Effect → Bool
  | [] => true
  | e :: rest =>
    if e = Effect.destroyImage old then false
    else if e = Effect.setActive new then true
    else releasedOnlyAfterAdopt old new rest

/-! ### Generic scanning lemmas

`fscanf`-style token scanning examines the stream one character at a time
and stops at the first character that cannot extend the current token, so
a scan whose result leaves a non-empty remainder is unaffected by
appending further input, and a scan that stopped at end of input can only
have its final token extended. -/

theorem dropWhile_append_pos {α : Type} (p : α → Bool) (s e : List α)
    (h : s.dropWhile p ≠ []) : (s ++ e).dropWhile p = s.dropWhile p ++ e := by
  induction s with
  | nil => simp [List.dropWhile] at h
  | cons c t ih =>
    by_cases hc : p c
    · rw [List.dropWhile_cons_of_pos hc] at h
      rw [List.cons_append, List.dropWhile_cons_of_pos hc, List.dropWhile_cons_of_pos hc,
        ih h]
    · rw [List.cons_append, List.dropWhile_cons_of_neg hc, List.dropWhile_cons_of_neg hc,
        List.cons_append]

theorem takeWhile_append_pos {α : Type} (p : α → Bool) (s e : List α)
    (h : s.dropWhile p ≠ []) : (s ++ e).takeWhile p = s.takeWhile p := by
  induction s with
  | nil => simp [List.dropWhile] at h
  | cons c t ih =>
    by_cases hc : p c
    · rw [List.dropWhile_cons_of_pos hc] at h
      rw [List.cons_append, List.takeWhile_cons_of_pos hc, List.takeWhile_cons_of_pos hc,
        ih h]
    · rw [List.cons_append, List.takeWhile_cons_of_neg hc, List.takeWhile_cons_of_neg hc]

theorem takeWhile_append_all {α : Type} (p : α → Bool) (s e : List α)
    (h : s.dropWhile p = []) : (s ++ e).takeWhile p = s ++ e.takeWhile p := by
  induction s with
  | nil => simp
  | cons c t ih =>
    by_cases hc : p c
    · rw [List.dropWhile_cons_of_pos hc] at h
      rw [List.cons_append, List.takeWhile_cons_of_pos hc, ih h, List.cons_append]
    · rw [List.dropWhile_cons_of_neg hc] at h
      exact absurd h (List.cons_ne_nil c t)

theorem dropWhile_append_all {α : Type} (p : α → Bool) (s e : List α)
    (h : s.dropWhile p = []) : (s ++ e).dropWhile p = e.dropWhile p := by
  induction s with
  | nil => simp
  | cons c t ih =>
    by_cases hc : p c
    · rw [List.dropWhile_cons_of_pos hc] at h
      rw [List.cons_append, List.dropWhile_cons_of_pos hc, ih h]
    · rw [List.dropWhile_cons_of_neg hc] at h
      exact absurd h (List.cons_ne_nil c t)

theorem takeWhile_eq_self_of_dropWhile_nil {α : Type} (p : α → Bool) (s : List α)
    (h : s.dropWhile p = []) : s.takeWhile p = s := by
  have := List.takeWhile_append_dropWhile (p := p) (l := s)
  rw [h, List.append_nil] at this
  exact this

theorem dropSpaces_append (s e : List Char) (h : dropSpaces s ≠ []) :
    dropSpaces (s ++ e) = dropSpaces s ++ e :=
  dropWhile_append_pos isSpaceC s e h

theorem takeSign_append (s e : List Char) (h : s ≠ []) :
    takeSign (s ++ e) = ((takeSign s).1, (takeSign s).2 ++ e) := by
  match s with
  | [] => exact absurd rfl h
  | c :: t =>
    by_cases h1 : c = '-'
    · simp [takeSign, h1]
    · by_cases h2 : c = '+' <;> simp [takeSign, h1, h2]

theorem isSpaceC_cases (w : Char) (h : isSpaceC w = true) :
    w = ' ' ∨ w = '\t' ∨ w = '\n' ∨ w = '\x0b' ∨ w = '\x0c' ∨ w = '\r' := by
  simpa [isSpaceC, or_assoc] using h

theorem space_not_digit (w : Char) (h : isSpaceC w = true) : isDigitC w = false := by
  rcases isSpaceC_cases w h with rfl | rfl | rfl | rfl | rfl | rfl <;> decide

theorem space_not_oct (w : Char) (h : isSpaceC w = true) : isOctDigitC w = false := by
  rcases isSpaceC_cases w h with rfl | rfl | rfl | rfl | rfl | rfl <;> decide

theorem space_not_hex (w : Char) (h : isSpaceC w = true) : isHexDigitC w = false := by
  rcases isSpaceC_cases w h with rfl | rfl | rfl | rfl | rfl | rfl <;> decide

theorem space_not_x (w : Char) (h : isSpaceC w = true) : (w = 'x' || w = 'X') = false := by
  rcases isSpaceC_cases w h with rfl | rfl | rfl | rfl | rfl | rfl <;> decide

theorem takeWhile_cons_append_pos {α : Type} (p : α → Bool) (d : α) (s e : List α)
    (h : (d :: s).dropWhile p ≠ []) :
    (d :: (s ++ e)).takeWhile p = (d :: s).takeWhile p := by
  rw [← List.cons_append]
  exact takeWhile_append_pos p (d :: s) e h

theorem dropWhile_cons_append_pos {α : Type} (p : α → Bool) (d : α) (s e : List α)
    (h : (d :: s).dropWhile p ≠ []) :
    (d :: (s ++ e)).dropWhile p = (d :: s).dropWhile p ++ e := by
  rw [← List.cons_append]
  exact dropWhile_append_pos p (d :: s) e h

theorem takeWhile_cons_append_all {α : Type} (p : α → Bool) (d : α) (s e : List α)
    (h : (d :: s).dropWhile p = []) :
    (d :: (s ++ e)).takeWhile p = d :: (s ++ e.takeWhile p) := by
  rw [← List.cons_append, takeWhile_append_all p (d :: s) e h, List.cons_append]

theorem dropWhile_cons_append_all {α : Type} (p : α → Bool) (d : α) (s e : List α)
    (h : (d :: s).dropWhile p = []) :
    (d :: (s ++ e)).dropWhile p = e.dropWhile p := by
  rw [← List.cons_append]
  exact dropWhile_append_all p (d :: s) e h

theorem scanTok_append {α : Type} (p : Char → Bool) (f : List Char → α) (s e : List Char)
    (v : α) (r : List Char) (h : scanTok p f s = some (v, r)) (hr : r ≠ []) :
    scanTok p f (s ++ e) = some (v, r ++ e) := by
  by_cases hds : s.takeWhile p = []
  · simp [scanTok, hds] at h
  · simp only [scanTok, hds, if_false, Option.some_inj, Prod.mk.injEq] at h
    obtain ⟨hv, hrr⟩ := h
    have hr3 : s.dropWhile p ≠ [] := by rw [hrr]; exact hr
    rw [scanTok, takeWhile_append_pos _ _ _ hr3, dropWhile_append_pos _ _ _ hr3,
      if_neg hds, hv, hrr]

theorem scanTok_tail {α : Type} (p : Char → Bool) (f : List Char → α) (s e : List Char)
    (v : α) (h : scanTok p f s = some (v, [])) :
    ∃ v2 r2, scanTok p f (s ++ e) = some (v2, r2) := by
  by_cases hds : s.takeWhile p = []
  · simp [scanTok, hds] at h
  · simp only [scanTok, hds, if_false, Option.some_inj, Prod.mk.injEq] at h
    obtain ⟨-, hrr⟩ := h
    have hself : s.takeWhile p = s := takeWhile_eq_self_of_dropWhile_nil _ _ hrr
    have hsnil : s ≠ [] := by rw [← hself]; exact hds
    have hds2 : (s ++ e).takeWhile p ≠ [] := by
      rw [takeWhile_append_all _ _ _ hrr]
      intro hx
      exact hsnil (List.append_eq_nil.mp hx).1
    exact ⟨f ((s ++ e).takeWhile p), (s ++ e).dropWhile p, by rw [scanTok, if_neg hds2]⟩

theorem scanTok_space {α : Type} (p : Char → Bool) (f : List Char → α) (s e : List Char)
    (w : Char) (v : α) (hwp : p w = false) (h : scanTok p f s = some (v, [])) :
    scanTok p f (s ++ w :: e) = some (v, w :: e) := by
  by_cases hds : s.takeWhile p = []
  · simp [scanTok, hds] at h
  · simp only [scanTok, hds, if_false, Option.some_inj, Prod.mk.injEq] at h
    obtain ⟨hv, hrr⟩ := h
    have hself : s.takeWhile p = s := takeWhile_eq_self_of_dropWhile_nil _ _ hrr
    have htw : (w :: e).takeWhile p = [] := by simp [List.takeWhile_cons, hwp]
    have hdw : (w :: e).dropWhile p = w :: e := by simp [List.dropWhile_cons, hwp]
    have hsnil : s ≠ [] := by rw [← hself]; exact hds
    rw [scanTok, takeWhile_append_all _ _ _ hrr, dropWhile_append_all _ _ _ hrr,
      htw, hdw, List.append_nil, if_neg hsnil]
    rw [← hself, hv]

theorem scanTok0_append {α : Type} (p : Char → Bool) (f : List Char → α) (s e : List Char)
    (v : α) (r : List Char) (h : scanTok0 p f s = (v, r)) (hr : r ≠ []) :
    scanTok0 p f (s ++ e) = (v, r ++ e) := by
  simp only [scanTok0, Prod.mk.injEq] at h
  obtain ⟨hv, hrr⟩ := h
  have hr3 : s.dropWhile p ≠ [] := by rw [hrr]; exact hr
  rw [scanTok0, takeWhile_append_pos _ _ _ hr3, dropWhile_append_pos _ _ _ hr3, hv, hrr]

theorem scanTok0_space {α : Type} (p : Char → Bool) (f : List Char → α) (s e : List Char)
    (w : Char) (v : α) (hwp : p w = false) (h : scanTok0 p f s = (v, [])) :
    scanTok0 p f (s ++ w :: e) = (v, w :: e) := by
  simp only [scanTok0, Prod.mk.injEq] at h
  obtain ⟨hv, hrr⟩ := h
  have hself : s.takeWhile p = s := takeWhile_eq_self_of_dropWhile_nil _ _ hrr
  have htw : (w :: e).takeWhile p = [] := by simp [List.takeWhile_cons, hwp]
  have hdw : (w :: e).dropWhile p = w :: e := by simp [List.dropWhile_cons, hwp]
  rw [scanTok0, takeWhile_append_all _ _ _ hrr, dropWhile_append_all _ _ _ hrr, htw, hdw,
    List.append_nil, ← hself, hv]

theorem scanIntAfterSign_zero (neg : Bool) :
    scanIntAfterSign neg ['0'] = some (intSign neg 0, []) := rfl

theorem scanIntAfterSign_cons0 (neg : Bool) (d : Char) (s3 : List Char) :
    scanIntAfterSign neg ('0' :: d :: s3) =
      if d = 'x' || d = 'X' then
        scanTok isHexDigitC (fun ds => intSign neg (hexVal ds)) s3
      else some (scanTok0 isOctDigitC (fun ds => intSign neg (octVal ds)) (d :: s3)) := rfl

theorem scanIntAfterSign_cons_ne0 (neg : Bool) (c : Char) (s2 : List Char) (hc : c ≠ '0') :
    scanIntAfterSign neg (c :: s2) =
      scanTok isDigitC (fun ds => intSign neg (decVal ds)) (c :: s2) := by
  simp [scanIntAfterSign, hc]

theorem scanIntAfterSign_append (neg : Bool) (s e : List Char) (v : Int) (r : List Char)
    (h : scanIntAfterSign neg s = some (v, r)) (hr : r ≠ []) :
    scanIntAfterSign neg (s ++ e) = some (v, r ++ e) := by
  match s with
  | [] => simp [scanIntAfterSign] at h
  | c :: s2 =>
    rw [List.cons_append]
    by_cases hc : c = '0'
    · subst hc
      match s2 with
      | [] =>
        rw [scanIntAfterSign_zero] at h
        injection h with h2
        injection h2 with h3 h4
        exact absurd h4.symm hr
      | d :: s3 =>
        rw [List.cons_append]
        by_cases hd : (d = 'x' || d = 'X') = true
        · rw [scanIntAfterSign_cons0, if_pos hd] at h
          rw [scanIntAfterSign_cons0, if_pos hd]
          exact scanTok_append _ _ _ _ _ _ h hr
        · rw [scanIntAfterSign_cons0, if_neg hd] at h
          rw [scanIntAfterSign_cons0, if_neg hd]
          exact congrArg some (scanTok0_append _ _ (d :: s3) e _ _ (Option.some.inj h) hr)
    · rw [scanIntAfterSign_cons_ne0 neg c s2 hc] at h
      rw [scanIntAfterSign_cons_ne0 neg c _ hc]
      exact scanTok_append _ _ (c :: s2) e _ _ h hr

theorem scanIntAfterSign_space (neg : Bool) (s e : List Char) (w : Char) (v : Int)
    (hw : isSpaceC w = true) (h : scanIntAfterSign neg s = some (v, [])) :
    scanIntAfterSign neg (s ++ w :: e) = some (v, w :: e) := by
  have hwo : isOctDigitC w = false := space_not_oct w hw
  have hwh : isHexDigitC w = false := space_not_hex w hw
  have hwx : (w = 'x' || w = 'X') = false := space_not_x w hw
  have hwx2 : ¬((w = 'x' || w = 'X') = true) := by rw [hwx]; exact Bool.false_ne_true
  match s with
  | [] => simp [scanIntAfterSign] at h
  | c :: s2 =>
    rw [List.cons_append]
    by_cases hc : c = '0'
    · subst hc
      match s2 with
      | [] =>
        rw [scanIntAfterSign_zero] at h
        injection h with h2
        injection h2 with h3 h4
        rw [List.nil_append, scanIntAfterSign_cons0, if_neg hwx2]
        have htw : (w :: e).takeWhile isOctDigitC = [] := by
          simp [List.takeWhile_cons, hwo]
        have hdw : (w :: e).dropWhile isOctDigitC = w :: e := by
          simp [List.dropWhile_cons, hwo]
        rw [scanTok0, htw, hdw, ← h3]
        rfl
      | d :: s3 =>
        rw [List.cons_append]
        by_cases hd : (d = 'x' || d = 'X') = true
        · rw [scanIntAfterSign_cons0, if_pos hd] at h
          rw [scanIntAfterSign_cons0, if_pos hd]
          exact scanTok_space _ _ _ _ _ _ hwh h
        · rw [scanIntAfterSign_cons0, if_neg hd] at h
          rw [scanIntAfterSign_cons0, if_neg hd]
          exact congrArg some (scanTok0_space _ _ (d :: s3) e _ _ hwo (Option.some.inj h))
    · rw [scanIntAfterSign_cons_ne0 neg c s2 hc] at h
      rw [scanIntAfterSign_cons_ne0 neg c _ hc]
      exact scanTok_space _ _ (c :: s2) e _ _ (space_not_digit w hw) h

theorem scanHhuAfterSign_append (neg : Bool) (s e : List Char) (v : Nat) (r : List Char)
    (h : scanHhuAfterSign neg s = some (v, r)) (hr : r ≠ []) :
    scanHhuAfterSign neg (s ++ e) = some (v, r ++ e) :=
  scanTok_append _ _ s e v r h hr

theorem scanHhuAfterSign_tail (neg : Bool) (s e : List Char) (v : Nat)
    (h : scanHhuAfterSign neg s = some (v, [])) :
    ∃ v2 r2, scanHhuAfterSign neg (s ++ e) = some (v2, r2) :=
  scanTok_tail _ _ s e v h

theorem scanHhuAfterSign_space (neg : Bool) (s e : List Char) (w : Char) (v : Nat)
    (hw : isSpaceC w = true) (h : scanHhuAfterSign neg s = some (v, [])) :
    scanHhuAfterSign neg (s ++ w :: e) = some (v, w :: e) :=
  scanTok_space _ _ s e w v (space_not_digit w hw) h

theorem scanInt_nil : scanInt [] = none := rfl

theorem scan_hhu_nil : scan_hhu [] = none := rfl

theorem scanInt_append (s e : List Char) (v : Int) (r : List Char)
    (h : scanInt s = some (v, r)) (hr : r ≠ []) : scanInt (s ++ e) = some (v, r ++ e) := by
  have hs0 : dropSpaces s ≠ [] := by
    intro h0
    rw [scanInt, scanIntCore, h0] at h
    exact Option.noConfusion h
  rw [scanInt, scanIntCore] at h
  rw [scanInt, scanIntCore, dropSpaces_append s e hs0, takeSign_append _ e hs0]
  exact scanIntAfterSign_append _ _ _ _ _ h hr

theorem scanInt_space (s e : List Char) (w : Char) (v : Int) (hw : isSpaceC w = true)
    (h : scanInt s = some (v, [])) : scanInt (s ++ w :: e) = some (v, w :: e) := by
  have hs0 : dropSpaces s ≠ [] := by
    intro h0
    rw [scanInt, scanIntCore, h0] at h
    exact Option.noConfusion h
  rw [scanInt, scanIntCore] at h
  rw [scanInt, scanIntCore, dropSpaces_append s (w :: e) hs0,
    takeSign_append (dropSpaces s) (w :: e) hs0]
  exact scanIntAfterSign_space _ _ e w v hw h

theorem scan_hhu_append (s e : List Char) (v : Nat) (r : List Char)
    (h : scan_hhu s = some (v, r)) (hr : r ≠ []) : scan_hhu (s ++ e) = some (v, r ++ e) := by
  have hs0 : dropSpaces s ≠ [] := by
    intro h0
    rw [scan_hhu, scanHhuCore, h0] at h
    exact Option.noConfusion h
  rw [scan_hhu, scanHhuCore] at h
  rw [scan_hhu, scanHhuCore, dropSpaces_append s e hs0, takeSign_append (dropSpaces s) e hs0]
  exact scanHhuAfterSign_append _ _ e v r h hr

theorem scan_hhu_space (s e : List Char) (w : Char) (v : Nat) (hw : isSpaceC w = true)
    (h : scan_hhu s = some (v, [])) : scan_hhu (s ++ w :: e) = some (v, w :: e) := by
  have hs0 : dropSpaces s ≠ [] := by
    intro h0
    rw [scan_hhu, scanHhuCore, h0] at h
    exact Option.noConfusion h
  rw [scan_hhu, scanHhuCore] at h
  rw [scan_hhu, scanHhuCore, dropSpaces_append s (w :: e) hs0,
    takeSign_append (dropSpaces s) (w :: e) hs0]
  exact scanHhuAfterSign_space _ _ e w v hw h

theorem scan_hhu_tail (s e : List Char) (v : Nat) (h : scan_hhu s = some (v, [])) :
    ∃ v2 r2, scan_hhu (s ++ e) = some (v2, r2) := by
  have hs0 : dropSpaces s ≠ [] := by
    intro h0
    rw [scan_hhu, scanHhuCore, h0] at h
    exact Option.noConfusion h
  rw [scan_hhu, scanHhuCore] at h
  obtain ⟨v2, r2, h2⟩ := scanHhuAfterSign_tail _ _ e v h
  refine ⟨v2, r2, ?_⟩
  rw [scan_hhu, scanHhuCore, dropSpaces_append s e hs0, takeSign_append (dropSpaces s) e hs0]
  exact h2

theorem scan2s_P3_append (s e r : List Char) (h : scan2s s = some (['P', '3'], r)) :
    scan2s (s ++ e) = some (['P', '3'], r ++ e) := by
  cases h0 : dropSpaces s with
  | nil => rw [scan2s, h0] at h; exact Option.noConfusion h
  | cons c rest =>
    have hne : dropSpaces s ≠ [] := by rw [h0]; exact List.cons_ne_nil c rest
    cases rest with
    | nil =>
      simp only [scan2s, h0] at h
      injection h with h2
      injection h2 with h3 h4
      exact absurd h3 (by simp)
    | cons d rest2 =>
      simp only [scan2s, h0] at h
      by_cases hsd : isSpaceC d = true
      · rw [if_pos hsd] at h
        injection h with h2
        injection h2 with h3 h4
        exact absurd h3 (by simp)
      · rw [if_neg hsd] at h
        injection h with h2
        injection h2 with h3 h4
        injection h3 with hc h5
        injection h5 with hd h6
        subst hc
        subst hd
        have step : scan2s (s ++ e) = some (['P', '3'], rest2 ++ e) := by
          rw [scan2s, dropSpaces_append s e hne, h0]
          rfl
        rw [step, h4]

theorem scan3_nil : scan3 [] = none := rfl

theorem scan3_append (s e : List Char) (a b c : Nat) (rest : List Char)
    (h : scan3 s = some (a, b, c, rest)) (hr : rest ≠ []) :
    scan3 (s ++ e) = some (a, b, c, rest ++ e) := by
  cases h1 : scan_hhu s with
  | none => rw [scan3, h1] at h; exact Option.noConfusion h
  | some p1 =>
    obtain ⟨a1, s1⟩ := p1
    simp only [scan3, h1] at h
    cases h2 : scan_hhu s1 with
    | none => rw [h2] at h; exact Option.noConfusion h
    | some p2 =>
      obtain ⟨a2, s2⟩ := p2
      simp only [h2] at h
      cases h3 : scan_hhu s2 with
      | none => rw [h3] at h; exact Option.noConfusion h
      | some p3 =>
        obtain ⟨a3, s3⟩ := p3
        simp only [h3, Option.some_inj, Prod.mk.injEq] at h
        obtain ⟨ha, hb, hc, hrest⟩ := h
        have hs1 : s1 ≠ [] := by
          rintro rfl
          rw [scan_hhu_nil] at h2
          exact Option.noConfusion h2
        have hs2 : s2 ≠ [] := by
          rintro rfl
          rw [scan_hhu_nil] at h3
          exact Option.noConfusion h3
        have hs3 : s3 ≠ [] := by rw [hrest]; exact hr
        simp only [scan3, scan_hhu_append s e a1 s1 h1 hs1,
          scan_hhu_append s1 e a2 s2 h2 hs2, scan_hhu_append s2 e a3 s3 h3 hs3,
          ha, hb, hc, hrest]

theorem scan3_space (s e : List Char) (w : Char) (a b c : Nat) (hw : isSpaceC w = true)
    (h : scan3 s = some (a, b, c, [])) :
    scan3 (s ++ w :: e) = some (a, b, c, w :: e) := by
  cases h1 : scan_hhu s with
  | none => rw [scan3, h1] at h; exact Option.noConfusion h
  | some p1 =>
    obtain ⟨a1, s1⟩ := p1
    simp only [scan3, h1] at h
    cases h2 : scan_hhu s1 with
    | none => rw [h2] at h; exact Option.noConfusion h
    | some p2 =>
      obtain ⟨a2, s2⟩ := p2
      simp only [h2] at h
      cases h3 : scan_hhu s2 with
      | none => rw [h3] at h; exact Option.noConfusion h
      | some p3 =>
        obtain ⟨a3, s3⟩ := p3
        simp only [h3, Option.some_inj, Prod.mk.injEq] at h
        obtain ⟨ha, hb, hc, hrest⟩ := h
        have hs1 : s1 ≠ [] := by
          rintro rfl
          rw [scan_hhu_nil] at h2
          exact Option.noConfusion h2
        have hs2 : s2 ≠ [] := by
          rintro rfl
          rw [scan_hhu_nil] at h3
          exact Option.noConfusion h3
        subst hrest
        simp only [scan3, scan_hhu_append s (w :: e) a1 s1 h1 hs1,
          scan_hhu_append s1 (w :: e) a2 s2 h2 hs2, scan_hhu_space s2 e w a3 hw h3,
          ha, hb, hc]

theorem scan3_tail (s e : List Char) (a b c : Nat)
    (h : scan3 s = some (a, b, c, [])) :
    ∃ a2 b2 c2 rest2, scan3 (s ++ e) = some (a2, b2, c2, rest2) := by
  cases h1 : scan_hhu s with
  | none => rw [scan3, h1] at h; exact Option.noConfusion h
  | some p1 =>
    obtain ⟨a1, s1⟩ := p1
    simp only [scan3, h1] at h
    cases h2 : scan_hhu s1 with
    | none => rw [h2] at h; exact Option.noConfusion h
    | some p2 =>
      obtain ⟨a2, s2⟩ := p2
      simp only [h2] at h
      cases h3 : scan_hhu s2 with
      | none => rw [h3] at h; exact Option.noConfusion h
      | some p3 =>
        obtain ⟨a3, s3⟩ := p3
        simp only [h3, Option.some_inj, Prod.mk.injEq] at h
        obtain ⟨ha, hb, hc, hrest⟩ := h
        have hs1 : s1 ≠ [] := by
          rintro rfl
          rw [scan_hhu_nil] at h2
          exact Option.noConfusion h2
        have hs2 : s2 ≠ [] := by
          rintro rfl
          rw [scan_hhu_nil] at h3
          exact Option.noConfusion h3
        subst hrest
        obtain ⟨v3, r3, h4⟩ := scan_hhu_tail s2 e a3 h3
        refine ⟨a1, a2, v3, r3, ?_⟩
        simp only [scan3, scan_hhu_append s e a1 s1 h1 hs1,
          scan_hhu_append s1 e a2 s2 h2 hs2, h4]

/-! ### Pixel-loop and header lemmas -/

theorem readPixels_nil_succ (k : Nat) (acc : List Nat) :
    readPixels [] (k + 1) acc = .error .pixelDataError := rfl

theorem readPixels_ok_append (n : Nat) :
    ∀ (s : List Char) (acc out : List Nat) (rest e : List Char),
      readPixels s n acc = .ok (out, rest) →
      ∃ out2 rest2, readPixels (s ++ e) n acc = .ok (out2, rest2) := by
  induction n with
  | zero =>
    intro s acc out rest e _
    exact ⟨acc, s ++ e, rfl⟩
  | succ m ih =>
    intro s acc out rest e h
    cases h1 : scan3 s with
    | none =>
      rw [readPixels, h1] at h
      exact Except.noConfusion h
    | some q =>
      obtain ⟨a, b, c, s2⟩ := q
      simp only [readPixels, h1] at h
      by_cases hs2 : s2 = []
      · subst hs2
        cases m with
        | zero =>
          obtain ⟨a2, b2, c2, r2, h4⟩ := scan3_tail s e a b c h1
          exact ⟨acc ++ [255, c2, b2, a2], r2, by simp only [readPixels, h4]⟩
        | succ k =>
          rw [readPixels_nil_succ] at h
          exact Except.noConfusion h
      · obtain ⟨out2, rest2, h6⟩ := ih s2 (acc ++ [255, c, b, a]) out rest e h
        refine ⟨out2, rest2, ?_⟩
        simp only [readPixels, scan3_append s e a b c s2 h1 hs2]
        exact h6

theorem readPixels_space (n : Nat) :
    ∀ (s : List Char) (acc out : List Nat) (rest : List Char) (w : Char) (e : List Char),
      isSpaceC w = true →
      readPixels s n acc = .ok (out, rest) →
      ∃ rest2, readPixels (s ++ w :: e) n acc = .ok (out, rest2) := by
  induction n with
  | zero =>
    intro s acc out rest w e hw h
    simp only [readPixels, Except.ok.injEq, Prod.mk.injEq] at h
    exact ⟨s ++ w :: e, by rw [readPixels, h.1]⟩
  | succ m ih =>
    intro s acc out rest w e hw h
    cases h1 : scan3 s with
    | none =>
      rw [readPixels, h1] at h
      exact Except.noConfusion h
    | some q =>
      obtain ⟨a, b, c, s2⟩ := q
      simp only [readPixels, h1] at h
      by_cases hs2 : s2 = []
      · subst hs2
        cases m with
        | zero =>
          have hout : out = acc ++ [255, c, b, a] := by
            simp only [readPixels, Except.ok.injEq, Prod.mk.injEq] at h
            exact h.1.symm
          refine ⟨w :: e, ?_⟩
          simp only [readPixels, scan3_space s e w a b c hw h1, hout]
        | succ k =>
          rw [readPixels_nil_succ] at h
          exact Except.noConfusion h
      · obtain ⟨rest2, h6⟩ := ih s2 (acc ++ [255, c, b, a]) out rest w e hw h
        refine ⟨rest2, ?_⟩
        simp only [readPixels, scan3_append s (w :: e) a b c s2 h1 hs2]
        exact h6

theorem readPixels_shape (n : Nat) :
    ∀ (s : List Char) (acc out : List Nat) (rest : List Char),
      readPixels s n acc = .ok (out, rest) →
      ∃ pix : List (Nat × Nat × Nat),
        out = acc ++ (pix.map fun t => [255, t.2.2, t.2.1, t.1]).flatten ∧
        pix.length = n := by
  induction n with
  | zero =>
    intro s acc out rest h
    simp only [readPixels, Except.ok.injEq, Prod.mk.injEq] at h
    exact ⟨[], by simp [h.1.symm], rfl⟩
  | succ m ih =>
    intro s acc out rest h
    cases h1 : scan3 s with
    | none =>
      rw [readPixels, h1] at h
      exact Except.noConfusion h
    | some q =>
      obtain ⟨a, b, c, s2⟩ := q
      simp only [readPixels, h1] at h
      obtain ⟨pix, hout, hlen⟩ := ih s2 (acc ++ [255, c, b, a]) out rest h
      refine ⟨(a, b, c) :: pix, ?_, by simp [hlen]⟩
      simp [hout, List.flatten_cons]

theorem digit_not_space (ch : Char) (h : isDigitC ch = true) : isSpaceC ch = false := by
  cases hsp : isSpaceC ch
  · rfl
  · rcases isSpaceC_cases ch hsp with rfl | rfl | rfl | rfl | rfl | rfl <;>
      exact absurd h (by decide)

theorem digit_ne_minus (ch : Char) (h : isDigitC ch = true) : ch ≠ '-' := by
  intro he
  subst he
  exact absurd h (by decide)

theorem digit_ne_plus (ch : Char) (h : isDigitC ch = true) : ch ≠ '+' := by
  intro he
  subst he
  exact absurd h (by decide)

/-- A run of `p`-characters followed by a non-`p` head is scanned exactly. -/
theorem takeWhile_exact {α : Type} (p : α → Bool) (ds rest : List α)
    (hds : ∀ ch ∈ ds, p ch = true)
    (hrest : ∀ ch, rest.head? = some ch → p ch = false) :
    (ds ++ rest).takeWhile p = ds ∧ (ds ++ rest).dropWhile p = rest := by
  induction ds with
  | nil =>
    constructor
    · cases rest with
      | nil => rfl
      | cons rh rt => simp [List.takeWhile_cons, hrest rh rfl]
    · cases rest with
      | nil => rfl
      | cons rh rt => simp [List.dropWhile_cons, hrest rh rfl]
  | cons dh dt ih =>
    have hd : p dh = true := hds dh (List.mem_cons_self dh dt)
    obtain ⟨ih1, ih2⟩ := ih fun ch hch => hds ch (List.mem_cons_of_mem dh hch)
    constructor
    · rw [List.cons_append, List.takeWhile_cons_of_pos hd, ih1]
    · rw [List.cons_append, List.dropWhile_cons_of_pos hd, ih2]

/-- `%hhu` on an exact optionally-signed decimal token: the token is
consumed in full and converted through `hhuStore`. -/
theorem scan_hhu_token (ds rest : List Char) (hne : ds ≠ [])
    (hds : ∀ ch ∈ ds, isDigitC ch = true)
    (hrest : ∀ ch, rest.head? = some ch → isDigitC ch = false) :
    scan_hhu (ds ++ rest) = some (hhuStore false (decVal ds), rest) ∧
    scan_hhu ('-' :: (ds ++ rest)) = some (hhuStore true (decVal ds), rest) := by
  obtain ⟨tw, dw⟩ := takeWhile_exact isDigitC ds rest hds hrest
  match ds, hne with
  | dh :: dt, _ =>
    have hdh : isDigitC dh = true := hds dh (List.mem_cons_self dh dt)
    have hsp : isSpaceC dh = false := digit_not_space dh hdh
    have hm : dh ≠ '-' := digit_ne_minus dh hdh
    have hp2 : dh ≠ '+' := digit_ne_plus dh hdh
    have hne2 : dh :: dt ≠ ([] : List Char) := List.cons_ne_nil dh dt
    have hdrop : dropSpaces ((dh :: dt) ++ rest) = dh :: (dt ++ rest) := by
      rw [List.cons_append, dropSpaces, List.dropWhile_cons_of_neg (by simp [hsp])]
    have hsign : takeSign (dh :: (dt ++ rest)) = (false, dh :: (dt ++ rest)) := by
      simp [takeSign, hm, hp2]
    constructor
    · rw [scan_hhu, scanHhuCore, hdrop, hsign]
      show scanTok isDigitC (fun ds2 => hhuStore false (decVal ds2))
        ((dh :: dt) ++ rest) = some (hhuStore false (decVal (dh :: dt)), rest)
      rw [scanTok, tw, dw, if_neg hne2]
    · have hdrop2 : dropSpaces ('-' :: ((dh :: dt) ++ rest)) = '-' :: ((dh :: dt) ++ rest) := by
        rw [dropSpaces, List.dropWhile_cons_of_neg (by simp [isSpaceC])]
      rw [scan_hhu, scanHhuCore, hdrop2]
      show scanTok isDigitC (fun ds2 => hhuStore true (decVal ds2))
        ((dh :: dt) ++ rest) = some (hhuStore true (decVal (dh :: dt)), rest)
      rw [scanTok, tw, dw, if_neg hne2]

/-- The `uint8_t` store of `%hhu` is reduction modulo 256 of the signed
token value, provided the digits do not overflow `unsigned long`. -/
theorem hhuStore_eq_emod (neg : Bool) (n : Nat) (h : n < 2 ^ 64) :
    hhuStore neg n = ((intSign neg n) % 256).toNat := by
  cases neg
  · simp only [hhuStore, intSign, if_pos h, if_neg (show ¬(false = true) by decide)]
    omega
  · simp only [hhuStore, intSign, if_pos h, eq_self_iff_true, if_true]
    omega

theorem scan2s_tag (s m r : List Char) (h : scan2s s = some (m, r))
    (h0 : m.get? 0 = some 'P') (h1 : m.get? 1 = some '3') : m = ['P', '3'] := by
  cases hd : dropSpaces s with
  | nil =>
    rw [scan2s, hd] at h
    exact Option.noConfusion h
  | cons c rest =>
    cases rest with
    | nil =>
      simp only [scan2s, hd] at h
      injection h with h2
      injection h2 with h3 h4
      rw [← h3] at h1
      simp [List.get?] at h1
    | cons d rest2 =>
      simp only [scan2s, hd] at h
      by_cases hsd : isSpaceC d = true
      · rw [if_pos hsd] at h
        injection h with h2
        injection h2 with h3 h4
        rw [← h3] at h1
        simp [List.get?] at h1
      · rw [if_neg hsd] at h
        injection h with h2
        injection h2 with h3 h4
        rw [← h3] at h0 h1
        simp only [List.get?] at h0 h1
        injection h0 with h0
        injection h1 with h1
        rw [← h3, h0, h1]

theorem readHeader_parts (c : List Char) (w h mc : Int) (r4 : List Char)
    (hh : readHeader c = .ok (w, h, mc, r4)) :
    ∃ r1 r2 r3, scan2s c = some (['P', '3'], r1) ∧
      scanInt r1 = some (w, r2) ∧ scanInt r2 = some (h, r3) ∧
      scanInt r3 = some (mc, r4) := by
  cases h1 : scan2s c with
  | none =>
    rw [readHeader, h1] at hh
    exact Except.noConfusion hh
  | some q1 =>
    obtain ⟨m, r1⟩ := q1
    simp only [readHeader, h1] at hh
    by_cases hP : m.get? 0 = some 'P' ∧ m.get? 1 = some '3'
    · rw [if_pos hP] at hh
      have hm : m = ['P', '3'] := scan2s_tag c m r1 h1 hP.1 hP.2
      subst hm
      cases h2 : scanInt r1 with
      | none =>
        rw [h2] at hh
        exact Except.noConfusion hh
      | some q2 =>
        obtain ⟨w2, r2⟩ := q2
        simp only [h2] at hh
        cases h3 : scanInt r2 with
        | none =>
          rw [h3] at hh
          exact Except.noConfusion hh
        | some q3 =>
          obtain ⟨h2v, r3⟩ := q3
          simp only [h3] at hh
          cases h4 : scanInt r3 with
          | none =>
            rw [h4] at hh
            exact Except.noConfusion hh
          | some q4 =>
            obtain ⟨mc2, r42⟩ := q4
            simp only [h4, Except.ok.injEq, Prod.mk.injEq] at hh
            obtain ⟨hw, hh2, hmc, hr4⟩ := hh
            subst hw
            subst hh2
            subst hmc
            subst hr4
            exact ⟨r1, r2, r3, rfl, h2, h3, h4⟩
    · rw [if_neg hP] at hh
      exact Except.noConfusion hh

theorem P3_check : (['P', '3'].get? 0 = some 'P' ∧ ['P', '3'].get? 1 = some '3') := by
  constructor <;> rfl

theorem readHeader_build (c r1 r2 r3 r4 : List Char) (w h mc : Int)
    (h1 : scan2s c = some (['P', '3'], r1)) (h2 : scanInt r1 = some (w, r2))
    (h3 : scanInt r2 = some (h, r3)) (h4 : scanInt r3 = some (mc, r4)) :
    readHeader c = .ok (w, h, mc, r4) := by
  simp only [readHeader, h1, if_pos P3_check, h2, h3, h4]

theorem readHeader_append_strong (c e : List Char) (w h mc : Int) (r4 : List Char)
    (hh : readHeader c = .ok (w, h, mc, r4)) (hr : r4 ≠ []) :
    readHeader (c ++ e) = .ok (w, h, mc, r4 ++ e) := by
  obtain ⟨r1, r2, r3, h1, h2, h3, h4⟩ := readHeader_parts c w h mc r4 hh
  have hr2 : r2 ≠ [] := by
    rintro rfl
    rw [scanInt_nil] at h3
    exact Option.noConfusion h3
  have hr3 : r3 ≠ [] := by
    rintro rfl
    rw [scanInt_nil] at h4
    exact Option.noConfusion h4
  exact readHeader_build (c ++ e) (r1 ++ e) (r2 ++ e) (r3 ++ e) (r4 ++ e) w h mc
    (scan2s_P3_append c e r1 h1) (scanInt_append r1 e w r2 h2 hr2)
    (scanInt_append r2 e h r3 h3 hr3) (scanInt_append r3 e mc r4 h4 hr)

theorem readHeader_space (c : List Char) (w h mc : Int) (r4 : List Char) (ws : Char)
    (e2 : List Char) (hw : isSpaceC ws = true)
    (hh : readHeader c = .ok (w, h, mc, r4)) :
    ∃ r42, readHeader (c ++ ws :: e2) = .ok (w, h, mc, r42) := by
  by_cases hr : r4 = []
  · subst hr
    obtain ⟨r1, r2, r3, h1, h2, h3, h4⟩ := readHeader_parts c w h mc [] hh
    have hr2 : r2 ≠ [] := by
      rintro rfl
      rw [scanInt_nil] at h3
      exact Option.noConfusion h3
    have hr3 : r3 ≠ [] := by
      rintro rfl
      rw [scanInt_nil] at h4
      exact Option.noConfusion h4
    exact ⟨ws :: e2, readHeader_build (c ++ ws :: e2) (r1 ++ ws :: e2) (r2 ++ ws :: e2)
      (r3 ++ ws :: e2) (ws :: e2) w h mc
      (scan2s_P3_append c (ws :: e2) r1 h1) (scanInt_append r1 (ws :: e2) w r2 h2 hr2)
      (scanInt_append r2 (ws :: e2) h r3 h3 hr3) (scanInt_space r3 e2 ws mc hw h4)⟩
  · exact ⟨r4 ++ ws :: e2, readHeader_append_strong c (ws :: e2) w h mc r4 hh hr⟩

/-! ### Decoder-level lemmas -/

theorem ppm_read_file_build (p : String) (c : List Char) (w hgt mc : Int)
    (r4 : List Char) (data : List Nat) (rest2 : List Char)
    (hh : readHeader c = .ok (w, hgt, mc, r4))
    (hp : readPixels r4 (w * hgt).toNat [] = .ok (data, rest2)) :
    ppm_read_file p c = .ok ⟨p, "P3", w, hgt, mc, data⟩ := by
  simp only [ppm_read_file, hh, hp]

theorem ppm_read_file_parts (p : String) (c : List Char) (img : PPMFile)
    (h : ppm_read_file p c = .ok img) :
    ∃ r4 rest2, readHeader c = .ok (img.width, img.height, img.max_color, r4) ∧
      readPixels r4 (img.width * img.height).toNat [] = .ok (img.data, rest2) ∧
      img.path = p ∧ img.magic_number = "P3" := by
  cases hh : readHeader c with
  | error e2 =>
    rw [ppm_read_file, hh] at h
    exact Except.noConfusion h
  | ok q =>
    obtain ⟨w, hgt, mc, r4⟩ := q
    simp only [ppm_read_file, hh] at h
    cases hp : readPixels r4 (w * hgt).toNat [] with
    | error e2 =>
      rw [hp] at h
      exact Except.noConfusion h
    | ok q2 =>
      obtain ⟨data, rest2⟩ := q2
      simp only [hp, Except.ok.injEq] at h
      subst h
      exact ⟨r4, rest2, rfl, hp, rfl, rfl⟩

/-- Whitespace-separated trailing content is invisible to the decoder: a
successful decode is unchanged when a whitespace character followed by
anything is appended to the input. -/
theorem ppm_read_file_space (p : String) (c extra : List Char) (ws : Char) (img : PPMFile)
    (hw : isSpaceC ws = true) (h : ppm_read_file p c = .ok img) :
    ppm_read_file p (c ++ ws :: extra) = .ok img := by
  obtain ⟨r4, rest2, hh, hp, hpath, hmagic⟩ := ppm_read_file_parts p c img h
  have himg : img = ⟨p, "P3", img.width, img.height, img.max_color, img.data⟩ := by
    cases img
    simp_all
  by_cases hr4 : r4 = []
  · subst hr4
    cases hN : (img.width * img.height).toNat with
    | succ k =>
      rw [hN, readPixels_nil_succ] at hp
      exact Except.noConfusion hp
    | zero =>
      rw [hN] at hp
      have hdata : img.data = [] := by
        simp only [readPixels, Except.ok.injEq, Prod.mk.injEq] at hp
        exact hp.1.symm
      obtain ⟨r42, hh2⟩ := readHeader_space c img.width img.height img.max_color []
        ws extra hw hh
      have hp2 : readPixels r42 (img.width * img.height).toNat [] = .ok ([], r42) := by
        rw [hN, readPixels]
      have := ppm_read_file_build p (c ++ ws :: extra) img.width img.height img.max_color
        r42 [] r42 hh2 hp2
      rw [this, ← hdata, ← himg]
  · have hh2 := readHeader_append_strong c (ws :: extra) img.width img.height
      img.max_color r4 hh hr4
    obtain ⟨rest3, hp2⟩ := readPixels_space (img.width * img.height).toNat r4 [] img.data
      rest2 ws extra hw hp
    have := ppm_read_file_build p (c ++ ws :: extra) img.width img.height img.max_color
      (r4 ++ ws :: extra) img.data rest3 hh2 hp2
    rw [this, ← himg]

/-- When the image has at least one pixel, appending arbitrary bytes to a
successfully decoded input still decodes successfully (the final sample
token may absorb leading appended digits, so the image may differ). -/
theorem ppm_read_file_append_pos (p : String) (c extra : List Char) (img : PPMFile)
    (h : ppm_read_file p c = .ok img) (hpos : 0 < (img.width * img.height).toNat) :
    ∃ img2, ppm_read_file p (c ++ extra) = .ok img2 := by
  obtain ⟨r4, rest2, hh, hp, hpath, hmagic⟩ := ppm_read_file_parts p c img h
  have hr4 : r4 ≠ [] := by
    rintro rfl
    cases hN : (img.width * img.height).toNat with
    | zero =>
      rw [hN] at hpos
      exact Nat.lt_irrefl 0 hpos
    | succ k =>
      rw [hN, readPixels_nil_succ] at hp
      exact Except.noConfusion hp
  have hh2 := readHeader_append_strong c extra img.width img.height img.max_color r4 hh hr4
  obtain ⟨out2, rest3, hp2⟩ := readPixels_ok_append (img.width * img.height).toNat r4 []
    img.data rest2 extra hp
  exact ⟨⟨p, "P3", img.width, img.height, img.max_color, out2⟩,
    ppm_read_file_build p (c ++ extra) img.width img.height img.max_color
      (r4 ++ extra) out2 rest3 hh2 hp2⟩

/-- Length of a buffer assembled from 4-byte pixel cells. -/
theorem flatten_cells_length (pix : List (Nat × Nat × Nat)) :
    ((pix.map fun t => [255, t.2.2, t.2.1, t.1]).flatten).length = 4 * pix.length := by
  induction pix with
  | nil => rfl
  | cons q rest ih =>
    simp only [List.map_cons, List.flatten_cons, List.length_append, ih, List.length_cons,
      List.length_nil]
    omega

/-- Every pixel cell of an assembled buffer starts with the alpha byte 255. -/
theorem flatten_cells_get (pix : List (Nat × Nat × Nat)) :
    ∀ k, k < pix.length →
      ((pix.map fun t => [255, t.2.2, t.2.1, t.1]).flatten).get? (4 * k) = some 255 := by
  induction pix with
  | nil =>
    intro k hk
    exact absurd hk (Nat.not_lt_zero k)
  | cons q rest ih =>
    intro k hk
    cases k with
    | zero => rfl
    | succ k2 =>
      have h4 : 4 * (k2 + 1) = 4 * k2 + 4 := by omega
      simp only [List.map_cons, List.flatten_cons, h4]
      rw [List.get?_append_right (by simp)]
      have h5 : 4 * k2 + 4 - ([255, q.2.2, q.2.1, q.1] : List Nat).length = 4 * k2 := by
        simp
      rw [h5]
      exact ih k2 (by simpa using hk)

theorem ppm_read_file_header_error (p : String) (c : List Char) (e : DecodeError)
    (h : readHeader c = .error e) : ppm_read_file p c = .error e := by
  simp only [ppm_read_file, h]

theorem readPixels_error (n : Nat) :
    ∀ (s : List Char) (acc : List Nat) (e : DecodeError),
      readPixels s n acc = .error e → e = .pixelDataError := by
  induction n with
  | zero =>
    intro s acc e h
    exact Except.noConfusion h
  | succ m ih =>
    intro s acc e h
    cases h1 : scan3 s with
    | none =>
      rw [readPixels, h1] at h
      injection h with h2
      exact h2.symm
    | some q =>
      obtain ⟨a, b, c, s2⟩ := q
      simp only [readPixels, h1] at h
      exact ih s2 (acc ++ [255, c, b, a]) e h

/-! ## The claims -/

/-- C1: for every valid P3 input the decoder produces a buffer of exactly
`width*height` four-byte cells, each cell being `[255, b, g, r]` (alpha,
blue, green, red at offsets 0..3, alpha always 255); and decoding the 2x1
image `P3 / 2 1 / 255 / 255 0 0 0 255 0` yields the bytes
`[255,0,0,255, 255,0,255,0]`. -/
theorem C1_decoded_buffer_layout (p : String) (c : List Char) (img : PPMFile) :
    (ppm_read_file p c = .ok img →
      ∃ pix : List (Nat × Nat × Nat),
        img.data = (pix.map fun t => [255, t.2.2, t.2.1, t.1]).flatten ∧
        pix.length = (img.width * img.height).toNat ∧
        img.data.length = (img.width * img.height).toNat * 4 ∧
        (∀ k, k < (img.width * img.height).toNat → img.data.get? (4 * k) = some 255)) ∧
    ppm_read_file "img.ppm" ("P3\n2 1\n255\n255 0 0 0 255 0").toList =
      .ok ⟨"img.ppm", "P3", 2, 1, 255, [255, 0, 0, 255, 255, 0, 255, 0]⟩ := by
  constructor
  · intro h
    obtain ⟨r4, rest2, hh, hp, -, -⟩ := ppm_read_file_parts p c img h
    obtain ⟨pix, hout, hlen⟩ :=
      readPixels_shape (img.width * img.height).toNat r4 [] img.data rest2 hp
    rw [List.nil_append] at hout
    refine ⟨pix, hout, hlen, ?_, ?_⟩
    · rw [hout, flatten_cells_length, hlen, Nat.mul_comm]
    · intro k hk
      rw [hout]
      exact flatten_cells_get pix k (by rw [hlen]; exact hk)
  · decide

/-- Witness for C1: the general layout statement evaluated on the 2x1
example image. -/
theorem C1_witness :
    ∃ pix : List (Nat × Nat × Nat),
      ([255, 0, 0, 255, 255, 0, 255, 0] : List Nat) =
        (pix.map fun t => [255, t.2.2, t.2.1, t.1]).flatten ∧ pix.length = 2 := by
  have hthm := C1_decoded_buffer_layout "img.ppm" ("P3\n2 1\n255\n255 0 0 0 255 0").toList
    ⟨"img.ppm", "P3", 2, 1, 255, [255, 0, 0, 255, 255, 0, 255, 0]⟩
  obtain ⟨pix, h1, h2, -, -⟩ := hthm.1 hthm.2
  exact ⟨pix, h1, h2⟩

/-- C2 counterexample: in the effect trace of a successful replacement,
`ppm_destroy` on the old image is issued strictly before the new image is
installed as the active one (`*ppm_file = new_ppm_file`), so the release
does not happen "only after image B is fully adopted as the active
image". -/
theorem C2_release_before_adopt_counterexample :
    (update_state "b.ppm" ("P3 1 1 255 4 5 6").toList
        (some ⟨"a.ppm", "P3", 1, 1, 255, [255, 3, 2, 1]⟩)).1 = true ∧
    (update_state "b.ppm" ("P3 1 1 255 4 5 6").toList
        (some ⟨"a.ppm", "P3", 1, 1, 255, [255, 3, 2, 1]⟩)).2.1 =
      some ⟨"b.ppm", "P3", 1, 1, 255, [255, 6, 5, 4]⟩ ∧
    releasedOnlyAfterAdopt ⟨"a.ppm", "P3", 1, 1, 255, [255, 3, 2, 1]⟩
      ⟨"b.ppm", "P3", 1, 1, 255, [255, 6, 5, 4]⟩
      (update_state "b.ppm" ("P3 1 1 255 4 5 6").toList
        (some ⟨"a.ppm", "P3", 1, 1, 255, [255, 3, 2, 1]⟩)).2.2 = false := by
  refine ⟨rfl, rfl, ?_⟩
  decide

/-- C2 (amended): loading image A and then image B leaves exactly image B
active; image A's resources are released exactly once, only on a
successful decode of B (never on a failed one), after B is fully decoded
but immediately BEFORE B is installed as the active image. -/
theorem C2_sequential_load_amended (pA pB : String) (cA cB : List Char) (A B : PPMFile)
    (hA : ppm_read_file pA cA = .ok A) (hB : ppm_read_file pB cB = .ok B) :
    update_state pA cA none = (true, some A,
      [Effect.setActive A, Effect.setWindowTitle A.path,
       Effect.setWindowSize A.width A.height, Effect.printDetails A]) ∧
    update_state pB cB (some A) = (true, some B,
      [Effect.destroyImage A, Effect.setActive B, Effect.setWindowTitle B.path,
       Effect.setWindowSize B.width B.height, Effect.printDetails B]) ∧
    (∀ (pC : String) (cC : List Char) (eC : DecodeError),
      ppm_read_file pC cC = .error eC →
      update_state pC cC (some A) = (false, some A, [])) := by
  refine ⟨?_, ?_, ?_⟩
  · simp [update_state, hA]
  · simp [update_state, hB]
  · intro pC cC eC hC
    simp [update_state, hC]

/-- Witness for C2 (amended): evaluated on two concrete 1x1 images. -/
theorem C2_witness :
    update_state "b.ppm" ("P3 1 1 255 4 5 6").toList
        (some ⟨"a.ppm", "P3", 1, 1, 255, [255, 3, 2, 1]⟩) =
      (true, some ⟨"b.ppm", "P3", 1, 1, 255, [255, 6, 5, 4]⟩,
        [Effect.destroyImage ⟨"a.ppm", "P3", 1, 1, 255, [255, 3, 2, 1]⟩,
         Effect.setActive ⟨"b.ppm", "P3", 1, 1, 255, [255, 6, 5, 4]⟩,
         Effect.setWindowTitle "b.ppm", Effect.setWindowSize 1 1,
         Effect.printDetails ⟨"b.ppm", "P3", 1, 1, 255, [255, 6, 5, 4]⟩]) := by
  have hthm := C2_sequential_load_amended "a.ppm" "b.ppm"
    ("P3 1 1 255 1 2 3").toList ("P3 1 1 255 4 5 6").toList
    ⟨"a.ppm", "P3", 1, 1, 255, [255, 3, 2, 1]⟩
    ⟨"b.ppm", "P3", 1, 1, 255, [255, 6, 5, 4]⟩ (by decide) (by decide)
  exact hthm.2.1

/-- C3: a load request whose decode fails leaves the viewer state exactly
as it was: `update_state` returns `false` with the old state and an empty
effect trace (no destroy, no retitle, no resize), and the event handler
triggers no draw and keeps the loop running (the failure is not fatal). -/
theorem C3_failed_load_preserves_state (p : String) (c : List Char)
    (st : Option PPMFile) (e : DecodeError) (he : ppm_read_file p c = .error e) :
    update_state p c st = (false, st, []) ∧
    handle_event ⟨true, st⟩ (.dropfile p c) = (⟨true, st⟩, []) := by
  constructor
  · simp [update_state, he]
  · simp [handle_event, update_state, he]

/-- Witness for C3: a failing drop onto the empty viewer. -/
theorem C3_witness :
    update_state "x" [] none = (false, none, []) ∧
    handle_event ⟨true, none⟩ (.dropfile "x" []) = (⟨true, none⟩, []) :=
  C3_failed_load_preserves_state "x" [] none .formatError (by decide)

/-- C4 counterexample: the pixel-data diagnostic carries no pixel index.
`P3 1 1 255` is missing pixel 0 and `P3 2 1 255 7 8 9` is missing pixel 1,
yet both decodes produce the identical fixed `pixelDataError` (the C code
prints the constant string "Error reading pixel data." in both cases), so
the error cannot name the index of the first missing pixel. -/
theorem C4_pixel_error_no_index_counterexample :
    ppm_read_file "t" ("P3 1 1 255").toList = .error .pixelDataError ∧
    ppm_read_file "t" ("P3 2 1 255 7 8 9").toList = .error .pixelDataError ∧
    ppm_read_file "t" ("P3 1 1 255").toList = ppm_read_file "t" ("P3 2 1 255 7 8 9").toList := by
  refine ⟨by decide, by decide, by decide⟩

/-- C4 (amended): for every input whose header parses but whose pixel
section is truncated or malformed, decode fails with the pixel-data error
(a fixed diagnostic that does not include the pixel index), no Image is
constructed, and any previously active Image remains active and
unchanged. -/
theorem C4_truncated_pixels_amended (p : String) (c : List Char) (w hgt mc : Int)
    (rest : List Char) (st : Option PPMFile) (e : DecodeError)
    (hh : readHeader c = .ok (w, hgt, mc, rest))
    (hp : readPixels rest (w * hgt).toNat [] = .error e) :
    e = DecodeError.pixelDataError ∧
    ppm_read_file p c = .error DecodeError.pixelDataError ∧
    (∀ img, ppm_read_file p c ≠ .ok img) ∧
    update_state p c st = (false, st, []) := by
  have he : e = DecodeError.pixelDataError :=
    readPixels_error (w * hgt).toNat rest [] e hp
  subst he
  have hd : ppm_read_file p c = .error DecodeError.pixelDataError := by
    simp only [ppm_read_file, hh, hp]
  refine ⟨rfl, hd, ?_, ?_⟩
  · intro img himg
    rw [hd] at himg
    exact Except.noConfusion himg
  · simp [update_state, hd]

/-- Witness for C4 (amended): the truncated image `P3 2 1 255 7 8 9`
dropped onto a viewer showing a 1x1 image. -/
theorem C4_witness :
    ppm_read_file "t" ("P3 2 1 255 7 8 9").toList = .error DecodeError.pixelDataError ∧
    update_state "t" ("P3 2 1 255 7 8 9").toList
      (some ⟨"a.ppm", "P3", 1, 1, 255, [255, 3, 2, 1]⟩) =
      (false, some ⟨"a.ppm", "P3", 1, 1, 255, [255, 3, 2, 1]⟩, []) := by
  have hthm := C4_truncated_pixels_amended "t" ("P3 2 1 255 7 8 9").toList 2 1 255
    (" 7 8 9").toList (some ⟨"a.ppm", "P3", 1, 1, 255, [255, 3, 2, 1]⟩)
    DecodeError.pixelDataError (by decide) (by decide)
  exact ⟨hthm.2.1, hthm.2.2.2⟩

/-- C5 counterexample: width and height are not validated for positivity:
`P3 0 1 255` decodes successfully into an image of width 0, refuting
"every constructed Image has strictly positive width and height". -/
theorem C5_nonpositive_dims_counterexample :
    ∃ img, ppm_read_file "z" ("P3 0 1 255").toList = .ok img ∧ ¬(0 < img.width) :=
  ⟨⟨"z", "P3", 0, 1, 255, []⟩, by decide, by decide⟩

/-- C5 (amended): after a valid tag, the decoder reads width and height
with two integer scans and fails with `DimensionError` whenever either
token is missing or non-numeric (conversion count short); the values are
NOT checked for positivity, so an Image with zero (or negative) width or
height can be constructed, e.g. from `P3 0 1 255`. -/
theorem C5_dimension_scan_amended (p : String) (c : List Char) (m r1 : List Char)
    (h1 : scan2s c = some (m, r1))
    (hP : m.get? 0 = some 'P' ∧ m.get? 1 = some '3') :
    (scanInt r1 = none → ppm_read_file p c = .error .dimensionError) ∧
    (∀ (w : Int) (r2 : List Char), scanInt r1 = some (w, r2) → scanInt r2 = none →
      ppm_read_file p c = .error .dimensionError) ∧
    (∃ img, ppm_read_file "z" ("P3 0 1 255").toList = .ok img ∧ img.width = 0) := by
  refine ⟨?_, ?_, ⟨⟨"z", "P3", 0, 1, 255, []⟩, by decide, rfl⟩⟩
  · intro hni
    exact ppm_read_file_header_error p c _ (by simp only [readHeader, h1, if_pos hP, hni])
  · intro w r2 hw hni
    exact ppm_read_file_header_error p c _
      (by simp only [readHeader, h1, if_pos hP, hw, hni])

/-- Witness for C5 (amended): `P3 9` is missing the height token. -/
theorem C5_witness : ppm_read_file "d" ("P3 9").toList = .error .dimensionError := by
  have hthm := C5_dimension_scan_amended "d" ("P3 9").toList ['P', '3'] (" 9").toList
    (by decide) (by decide)
  exact hthm.2.1 9 [] (by decide) (by decide)

/-- C6: whenever the stream is exhausted before a tag is scanned, or the
scanned (at most two-character) tag is not "P3", decode fails with
`FormatError` and no Image is constructed. -/
theorem C6_missing_tag_format_error (p : String) (c : List Char)
    (htag : ∀ m r, scan2s c = some (m, r) →
      ¬(m.get? 0 = some 'P' ∧ m.get? 1 = some '3')) :
    ppm_read_file p c = .error .formatError ∧
    ∀ img, ppm_read_file p c ≠ .ok img := by
  have hh : readHeader c = .error .formatError := by
    cases h1 : scan2s c with
    | none => simp only [readHeader, h1]
    | some q =>
      obtain ⟨m, r⟩ := q
      simp only [readHeader, h1]
      rw [if_neg (htag m r h1)]
  refine ⟨ppm_read_file_header_error p c _ hh, ?_⟩
  intro img himg
  rw [ppm_read_file_header_error p c _ hh] at himg
  exact Except.noConfusion himg

/-- Witness for C6: the tag `X9` is rejected. -/
theorem C6_witness :
    ppm_read_file "w" ("X9 1 1 255 0 0 0").toList = .error .formatError := by
  have hthm := C6_missing_tag_format_error "w" ("X9 1 1 255 0 0 0").toList (by
    intro m r hmr
    rw [show scan2s (("X9 1 1 255 0 0 0").toList) = some (['X', '9'], (" 1 1 255 0 0 0").toList)
      by decide] at hmr
    injection hmr with h2
    injection h2 with h3 h4
    rw [← h3]
    decide)
  exact hthm.1

/-- C7: with no active image the presenter clears the whole surface to
opaque blue `(0,0,255,255)` and presents; and every invocation, with or
without an image, issues exactly one present call. -/
theorem C7_presenter_blue_and_single_present :
    sdl_render_once none =
      [RenderOp.setDrawColor 0 0 255 255, RenderOp.renderClear, RenderOp.present] ∧
    ∀ st : Option PPMFile, countPresent (sdl_render_once st) = 1 := by
  refine ⟨rfl, ?_⟩
  intro st
  cases st <;> rfl

/-- C8: when the startup image path fails to decode, `main` continues in
the Empty state with the default 500x500 window titled "imgv" and enters
the event loop. -/
theorem C8_startup_failure_defaults (p : String) (c : List Char) (e : DecodeError)
    (he : ppm_read_file p c = .error e) :
    main_init (some (p, c)) =
      { state := none, window_title := "imgv", window_width := 500,
        window_height := 500, running := true } := by
  simp [main_init, he, Except.toOption]

/-- Witness for C8: a startup argument whose contents are not PPM. -/
theorem C8_witness :
    main_init (some ("bad", ("XX").toList)) =
      { state := none, window_title := "imgv", window_width := 500,
        window_height := 500, running := true } :=
  C8_startup_failure_defaults "bad" ("XX").toList .formatError (by decide)

/-- C9 counterexample: decode does NOT succeed regardless of arbitrary
trailing bytes.  `P3 0 1 0` (well-formed header, zero pixels) decodes
successfully, but appending the raw bytes `xz` glues onto the max-color
token, turning it into the invalid `%i` item `0x`, and decode fails. -/
theorem C9_trailing_bytes_counterexample :
    ppm_read_file "p" ("P3 0 1 0").toList = .ok ⟨"p", "P3", 0, 1, 0, []⟩ ∧
    ppm_read_file "p" (("P3 0 1 0").toList ++ ("xz").toList) =
      .error .maxColorError := by
  refine ⟨by decide, by decide⟩

/-- C9 (amended): the decoder reads exactly `width*height` triplets and
stops; anything beyond the last consumed token is never read or
validated.  A successful decode is preserved byte-for-byte under any
whitespace-separated trailing content; trailing bytes that abut the final
numeric token are scanned as part of that token, so with at least one
pixel decode still succeeds (possibly with a different final sample),
while in the zero-pixel case a glued hex prefix can even make the
max-color scan fail. -/
theorem C9_trailing_content_amended (p : String) (c extra : List Char) (ws : Char)
    (img : PPMFile) :
    (isSpaceC ws = true → ppm_read_file p c = .ok img →
      ppm_read_file p (c ++ ws :: extra) = .ok img) ∧
    (ppm_read_file p c = .ok img → 0 < (img.width * img.height).toNat →
      ∃ img2, ppm_read_file p (c ++ extra) = .ok img2) :=
  ⟨fun hw h => ppm_read_file_space p c extra ws img hw h,
   fun h hpos => ppm_read_file_append_pos p c extra img h hpos⟩

/-- Witness for C9 (amended): whitespace-separated junk after a 1x1 image
is ignored, and raw appended bytes still decode. -/
theorem C9_witness :
    ppm_read_file "p" (("P3 1 1 255 1 2 3").toList ++ ' ' :: ("zq").toList) =
      .ok ⟨"p", "P3", 1, 1, 255, [255, 3, 2, 1]⟩ ∧
    (∃ img2, ppm_read_file "p" (("P3 1 1 255 1 2 3").toList ++ ("4").toList) =
      .ok img2) := by
  constructor
  · exact (C9_trailing_content_amended "p" ("P3 1 1 255 1 2 3").toList ("zq").toList ' '
      ⟨"p", "P3", 1, 1, 255, [255, 3, 2, 1]⟩).1 (by decide) (by decide)
  · exact (C9_trailing_content_amended "p" ("P3 1 1 255 1 2 3").toList ("4").toList ' '
      ⟨"p", "P3", 1, 1, 255, [255, 3, 2, 1]⟩).2 (by decide) (by decide)

/-- C10: an out-of-range or negative sample token does not fail the
decode: the `%hhu` conversion accepts an optionally signed decimal token
and the `uint8_t` store keeps its value reduced modulo 256 ("-1" stores
255, "256" stores 0), and decoding proceeds normally — e.g.
`P3 1 1 255 -1 256 300` decodes to the single cell `[255, 44, 0, 255]`
(alpha 255, b = 300 mod 256 = 44, g = 256 mod 256 = 0, r = -1 mod 256 =
255). -/
theorem C10_out_of_range_samples_mod256 :
    (∀ (ds rest : List Char), ds ≠ [] →
      (∀ ch ∈ ds, isDigitC ch = true) →
      (∀ ch, rest.head? = some ch → isDigitC ch = false) →
      decVal ds < 2 ^ 64 →
      scan_hhu (ds ++ rest) = some ((((decVal ds : Int)) % 256).toNat, rest) ∧
      scan_hhu ('-' :: (ds ++ rest)) =
        some (((-(decVal ds : Int)) % 256).toNat, rest)) ∧
    ppm_read_file "p" ("P3 1 1 255 -1 256 300").toList =
      .ok ⟨"p", "P3", 1, 1, 255, [255, 44, 0, 255]⟩ := by
  constructor
  · intro ds rest hne hds hrest hsize
    obtain ⟨hu, hs⟩ := scan_hhu_token ds rest hne hds hrest
    constructor
    · rw [hu, hhuStore_eq_emod false (decVal ds) hsize]
      rfl
    · rw [hs, hhuStore_eq_emod true (decVal ds) hsize]
      rfl
  · decide

/-- Witness for C10: the token `-1` stores 255 and `256` stores 0. -/
theorem C10_witness :
    scan_hhu ['-', '1'] = some (255, []) ∧
    scan_hhu ['2', '5', '6'] = some (0, []) := by
  have h1 := (C10_out_of_range_samples_mod256.1 ['1'] [] (by decide) (by decide)
    (by intro ch hch; exact Option.noConfusion hch) (by decide)).2
  have h2 := (C10_out_of_range_samples_mod256.1 ['2', '5', '6'] [] (by decide) (by decide)
    (by intro ch hch; exact Option.noConfusion hch) (by decide)).1
  exact ⟨h1, h2⟩

end Imgv
